import Mathlib

/-
Verification development for the Convolutional Restricted Boltzmann Machine
(CRBM) defined in code/conv_rbm.py.

The Python code builds a symbolic Theano graph.  We embed its mathematical
semantics shallowly:

* tensors are a shape (a list of naturals) together with a total data
  function on natural-number indices (indices beyond the shape are junk);
* the scalar nonlinearities supplied by the framework (softplus, sigmoid,
  log, round, sqrt) are abstract parameters bundled in "ScalarOps";
* the symbolic random stream (theano_rng.binomial) is an abstract function
  from the call counter and the probability tensor to the sampled tensor,
  and every sampling call advances the counter by one, exactly mirroring
  the order of binomial calls in the Python code;
* the automatic gradient TT.grad(cost, params, consider_constant=[chain_end])
  is embedded by closed-form partial-derivative tensors (ttGradW,
  ttGradHbias, ttGradVbias); the theorem for claim C1 proves, over the reals,
  that these closed forms are the true partial derivatives of the CD cost
  with the chain end held constant, which is the defining property of the
  framework call;
* Python runtime failures (the constructor assertion, a missing attribute,
  indexing an empty sequence) are embedded with Except.
-/

namespace ConvRBM

/-- Python runtime errors that the embedded code can raise. -/
inductive PyErr where
  | assertionError
  | attributeError
  | indexError
deriving DecidableEq, Repr

/-- A dense tensor of rank at most four: a shape together with a total data
function; entries at indices outside the shape carry no meaning.  Vectors
use the first index and ignore the rest. -/
structure Tens (K : Type) where
  shape : List ℕ
  dat : ℕ → ℕ → ℕ → ℕ → K

/-- Size of axis i, with 0 for a missing axis. -/
def Tens.dim {K : Type} (x : Tens K) (i : ℕ) : ℕ := x.shape.getD i 0

/-- Elementwise map, keeping the shape (models elementwise Theano ops). -/
def Tens.emap {K : Type} (f : K → K) (x : Tens K) : Tens K :=
  { shape := x.shape, dat := fun a b c d => f (x.dat a b c d) }

/-- Elementwise difference (models the symbolic expression x - y). -/
def Tens.sub {K : Type} [Field K] (x y : Tens K) : Tens K :=
  { shape := x.shape, dat := fun a b c d => x.dat a b c d - y.dat a b c d }

/-- Elementwise multiplication by a scalar (models x * s). -/
def Tens.smul {K : Type} [Field K] (x : Tens K) (s : K) : Tens K :=
  { shape := x.shape, dat := fun a b c d => x.dat a b c d * s }

/-- A length-4 shape tuple, as the Python lists FS and IS. -/
structure Shape4 where
  s0 : ℕ
  s1 : ℕ
  s2 : ℕ
  s3 : ℕ
deriving DecidableEq, Repr

def Shape4.toList (s : Shape4) : List ℕ := [s.s0, s.s1, s.s2, s.s3]

/-- The scalar primitives supplied by the numerical framework:
softplus, sigmoid, log, round and sqrt.  They are parameters of the
embedding; claim C1 is proved under the hypothesis relating sp and sig
by differentiation, which holds for the real softplus and sigmoid. -/
structure ScalarOps (K : Type) where
  sp : K → K
  sig : K → K
  lg : K → K
  rnd : K → K
  sqrt : K → K

/-- numpy.zeros((n,)) as a rank-1 tensor. -/
def zerosVec {K : Type} [Field K] (n : ℕ) : Tens K :=
  { shape := [n], dat := fun _ _ _ _ => 0 }

/-- theano.tensor.nnet.conv.conv2d in the default valid mode.  The output
shape is [batch, nFilters, inH - fH + 1, inW - fW + 1] and the kernel is
flipped (true convolution), as documented by the framework and restated in
the source comments (lines 96-97). -/
def conv2dValid {K : Type} [Field K] (inp flt : Tens K) : Tens K :=
  let b := inp.dim 0
  let nf := flt.dim 0
  let c := flt.dim 1
  let fh := flt.dim 2
  let fw := flt.dim 3
  { shape := [b, nf, inp.dim 2 - fh + 1, inp.dim 3 - fw + 1]
    dat := fun n k i j =>
      ∑ ch ∈ Finset.range c, ∑ p ∈ Finset.range fh, ∑ q ∈ Finset.range fw,
        inp.dat n ch (i + p) (j + q) * flt.dat k ch (fh - 1 - p) (fw - 1 - q) }

/-- conv2d with border_mode=full: the input is zero-padded by fH-1 and fW-1
on each border, so the output shape is [batch, nFilters, inH + fH - 1,
inW + fW - 1]. -/
def conv2dFull {K : Type} [Field K] (inp flt : Tens K) : Tens K :=
  let b := inp.dim 0
  let nf := flt.dim 0
  let c := flt.dim 1
  let fh := flt.dim 2
  let fw := flt.dim 3
  let ih := inp.dim 2
  let iw := inp.dim 3
  let pad : ℕ → ℕ → ℕ → ℕ → K := fun n ch y x =>
    if fh - 1 ≤ y ∧ y < fh - 1 + ih ∧ fw - 1 ≤ x ∧ x < fw - 1 + iw then
      inp.dat n ch (y - (fh - 1)) (x - (fw - 1))
    else 0
  { shape := [b, nf, ih + fh - 1, iw + fw - 1]
    dat := fun n k i j =>
      ∑ ch ∈ Finset.range c, ∑ p ∈ Finset.range fh, ∑ q ∈ Finset.range fw,
        pad n ch (i + p) (j + q) * flt.dat k ch (fh - 1 - p) (fw - 1 - q) }

/-- The state of a constructed CRBM object: the attributes assigned by
CRBM.__init__.  The attribute n_visible, which get_pseudo_likelihood_cost
reads, is never assigned by the class, so it is an Option that the
constructor leaves at none (a missing Python attribute). -/
structure CRBM (K : Type) where
  input : Tens K
  W : Tens K
  hbias : Tens K
  vbias : Tens K
  FS : Shape4
  IS : Shape4
  nVisible : Option ℕ

/-- self.FSinv (source line 83): input and output channels swapped. -/
def CRBM.FSinv {K : Type} (m : CRBM K) : Shape4 :=
  { s0 := m.FS.s1, s1 := m.FS.s0, s2 := m.FS.s2, s3 := m.FS.s3 }

/-- self.ISinv (source line 88): the hidden-layer shape. -/
def CRBM.ISinv {K : Type} (m : CRBM K) : Shape4 :=
  { s0 := m.IS.s0, s1 := m.FS.s0
    s2 := m.IS.s2 - m.FS.s2 + 1, s3 := m.IS.s3 - m.FS.s3 + 1 }

/-- Names of the shared variables a CRBM can train. -/
inductive PName where
  | W
  | hbias
  | vbias
deriving DecidableEq, Repr

/-- self.params (source line 92). -/
def CRBM.params {K : Type} (_ : CRBM K) : List PName :=
  [PName.W, PName.hbias, PName.vbias]

/-- CRBM.__init__ (source lines 11-92).  The numpy random generator is the
abstract function uniform (numpy_rng.uniform(low, high, size)); a fresh
symbolic matrix TT.matrix created when input is None is the abstract tensor
freshMat.  The only check performed is the assertion IS[1] == FS[1]. -/
def crbmInit {K : Type} [Field K] (ops : ScalarOps K)
    (uniform : K → K → Shape4 → Tens K) (freshMat : Tens K)
    (inputArg wArg hbiasArg vbiasArg : Option (Tens K))
    (FS IS : Shape4) : Except PyErr (CRBM K) :=
  if IS.s1 = FS.s1 then
    let inp : Tens K :=
      match inputArg with
      | none => freshMat
      | some v => v
    let w : Tens K :=
      match wArg with
      | some w0 => w0
      | none =>
        let fanIn : ℕ := FS.s1 * (FS.s2 * FS.s3)
        let fanOut : ℕ := FS.s0 * (FS.s2 * FS.s3)
        let wBound : K := ops.sqrt ((6 : K) / (fanIn : K) + (fanOut : K))
        uniform (-wBound) wBound FS
    let hb : Tens K :=
      match hbiasArg with
      | none => zerosVec FS.s0
      | some h0 => h0
    let vb : Tens K :=
      match vbiasArg with
      | none => zerosVec FS.s1
      | some v0 => v0
    Except.ok
      { input := inp, W := w, hbias := hb, vbias := vb
        FS := FS, IS := IS, nVisible := none }
  else
    Except.error PyErr.assertionError

/-- conv_upward (source lines 95-102): valid convolution of the visibles
with the filter bank W, plus the hidden bias broadcast over every map. -/
def conv_upward {K : Type} [Field K] (m : CRBM K) (v : Tens K) : Tens K :=
  let c := conv2dValid v m.W
  { shape := c.shape
    dat := fun n k i j => c.dat n k i j + m.hbias.dat k 0 0 0 }

/-- conv_downward (source lines 105-113): full-mode convolution of the
hiddens with the channel-transposed (dimshuffle(1,0,2,3)) and doubly
flipped ([:,:,::-1,::-1]) filter bank, plus the visible bias broadcast
over every channel. -/
def conv_downward {K : Type} [Field K] (m : CRBM K) (h : Tens K) : Tens K :=
  let wFlip : Tens K :=
    { shape := m.FSinv.toList
      dat := fun a b2 p q =>
        m.W.dat b2 a (m.FS.s2 - 1 - p) (m.FS.s3 - 1 - q) }
  let c := conv2dFull h wFlip
  { shape := c.shape
    dat := fun n ch i j => c.dat n ch i j + m.vbias.dat ch 0 0 0 }

/-- free_energy (source lines 116-131): one scalar per batch element,
minus the softplus hidden term summed over axes 1,2,3 minus the dot product
of the per-channel sum of the visibles with the visible bias. -/
def free_energy {K : Type} [Field K] (ops : ScalarOps K) (m : CRBM K)
    (v : Tens K) : Tens K :=
  let wxb := conv_upward m v
  { shape := [v.dim 0]
    dat := fun n _ _ _ =>
      -(∑ k ∈ Finset.range (wxb.dim 1), ∑ i ∈ Finset.range (wxb.dim 2),
          ∑ j ∈ Finset.range (wxb.dim 3), ops.sp (wxb.dat n k i j))
      - ∑ ch ∈ Finset.range (v.dim 1),
          (∑ h2 ∈ Finset.range (v.dim 2), ∑ w2 ∈ Finset.range (v.dim 3),
            v.dat n ch h2 w2) * m.vbias.dat ch 0 0 0 }

/-- propup (source lines 140-145): pre-sigmoid activation and mean. -/
def propup {K : Type} [Field K] (ops : ScalarOps K) (m : CRBM K)
    (vis : Tens K) : Tens K × Tens K :=
  (conv_upward m vis, (conv_upward m vis).emap ops.sig)

/-- propdown (source lines 134-138). -/
def propdown {K : Type} [Field K] (ops : ScalarOps K) (m : CRBM K)
    (hid : Tens K) : Tens K × Tens K :=
  (conv_downward m hid, (conv_downward m hid).emap ops.sig)

/-- sample_h_given_v (source lines 147-154).  rng is the binomial sampling
stream of theano_rng; t is the call counter, advanced by one per call. -/
def sample_h_given_v {K : Type} [Field K] (ops : ScalarOps K) (m : CRBM K)
    (rng : ℕ → Tens K → Tens K) (t : ℕ) (v0 : Tens K) :
    (Tens K × Tens K × Tens K) × ℕ :=
  let pm := propup ops m v0
  ((pm.1, pm.2, rng t pm.2), t + 1)

/-- sample_v_given_h (source lines 156-166). -/
def sample_v_given_h {K : Type} [Field K] (ops : ScalarOps K) (m : CRBM K)
    (rng : ℕ → Tens K → Tens K) (t : ℕ) (h0 : Tens K) :
    (Tens K × Tens K × Tens K) × ℕ :=
  let pm := propdown ops m h0
  ((pm.1, pm.2, rng t pm.2), t + 1)

/-- The six per-step outputs of one Gibbs step starting from the hiddens. -/
structure GibbsOut (K : Type) where
  preV : Tens K
  vMean : Tens K
  vSample : Tens K
  preH : Tens K
  hMean : Tens K
  hSample : Tens K

/-- gibbs_hvh (source lines 168-174): sample visibles given hiddens, then
hiddens given those visibles. -/
def gibbs_hvh {K : Type} [Field K] (ops : ScalarOps K) (m : CRBM K)
    (rng : ℕ → Tens K → Tens K) (t : ℕ) (h0 : Tens K) : GibbsOut K × ℕ :=
  let a := sample_v_given_h ops m rng t h0
  let b := sample_h_given_v ops m rng a.2 a.1.2.2
  (⟨a.1.1, a.1.2.1, a.1.2.2, b.1.1, b.1.2.1, b.1.2.2⟩, b.2)

/-- gibbs_vhv (source lines 176-182): one Gibbs step from the visibles. -/
def gibbs_vhv {K : Type} [Field K] (ops : ScalarOps K) (m : CRBM K)
    (rng : ℕ → Tens K → Tens K) (t : ℕ) (v0 : Tens K) :
    (Tens K × Tens K × Tens K × Tens K × Tens K × Tens K) × ℕ :=
  let a := sample_h_given_v ops m rng t v0
  let b := sample_v_given_h ops m rng a.2 a.1.2.2
  ((a.1.1, a.1.2.1, a.1.2.2, b.1.1, b.1.2.1, b.1.2.2), b.2)

/-- theano.scan of gibbs_hvh with n_steps = k (source lines 221-228): the
whole chain of per-step outputs, together with the scan updates for the
random stream, here the final value of the call counter. -/
def gibbsScan {K : Type} [Field K] (ops : ScalarOps K) (m : CRBM K)
    (rng : ℕ → Tens K → Tens K) : ℕ → ℕ → Tens K → List (GibbsOut K) × ℕ
  | 0, t, _ => ([], t)
  | Nat.succ k, t, h0 =>
    let a := gibbs_hvh ops m rng t h0
    let rest := gibbsScan ops m rng k a.2 a.1.hSample
    (a.1 :: rest.1, rest.2)

/-- Mean over the batch axis: TT.mean of a shape-[b] tensor given by f. -/
def batchMean {K : Type} [Field K] (b : ℕ) (f : ℕ → K) : K :=
  (∑ n ∈ Finset.range b, f n) / (b : K)

/-- Scalar accessor for the free energy of batch element n. -/
def feVal {K : Type} [Field K] (ops : ScalarOps K) (m : CRBM K)
    (v : Tens K) (n : ℕ) : K :=
  (free_energy ops m v).dat n 0 0 0

/-- TT.mean(self.free_energy(v)) (source lines 234-235). -/
def meanFE {K : Type} [Field K] (ops : ScalarOps K) (m : CRBM K)
    (v : Tens K) : K :=
  batchMean (v.dim 0) (feVal ops m v)

/-- The CD-k / PCD-k cost (source lines 234-235): mean free energy of the
input minus mean free energy of the sample at the end of the chain. -/
def cdCost {K : Type} [Field K] (ops : ScalarOps K) (m : CRBM K)
    (chainEnd : Tens K) : K :=
  meanFE ops m m.input - meanFE ops m chainEnd

/-- Entry (n, k, i, j) of conv_upward applied to v. -/
def upAt {K : Type} [Field K] (m : CRBM K) (v : Tens K) (n k i j : ℕ) : K :=
  (conv_upward m v).dat n k i j

/-- Entry (n, k, i, j) of the bias-free valid convolution of v with W. -/
def convPart {K : Type} [Field K] (m : CRBM K) (v : Tens K)
    (n k i j : ℕ) : K :=
  (conv2dValid v m.W).dat n k i j

/-- Partial derivative of feVal ops m v n with respect to hbias entry k0
(chain rule through softplus; the softplus derivative is sigmoid). -/
def dFEhbias {K : Type} [Field K] (ops : ScalarOps K) (m : CRBM K)
    (v : Tens K) (n k0 : ℕ) : K :=
  -∑ i ∈ Finset.range (v.dim 2 - m.W.dim 2 + 1),
     ∑ j ∈ Finset.range (v.dim 3 - m.W.dim 3 + 1),
       ops.sig (upAt m v n k0 i j)

/-- Partial derivative of feVal ops m v n with respect to vbias entry c0. -/
def dFEvbias {K : Type} [Field K] (v : Tens K) (n c0 : ℕ) : K :=
  -∑ h2 ∈ Finset.range (v.dim 2), ∑ w2 ∈ Finset.range (v.dim 3),
     v.dat n c0 h2 w2

/-- Partial derivative of feVal ops m v n with respect to the filter entry
W[k0, c0, p0, q0]. -/
def dFEW {K : Type} [Field K] (ops : ScalarOps K) (m : CRBM K)
    (v : Tens K) (n k0 c0 p0 q0 : ℕ) : K :=
  -∑ i ∈ Finset.range (v.dim 2 - m.W.dim 2 + 1),
     ∑ j ∈ Finset.range (v.dim 3 - m.W.dim 3 + 1),
       ops.sig (upAt m v n k0 i j) *
         v.dat n c0 (i + (m.W.dim 2 - 1 - p0)) (j + (m.W.dim 3 - 1 - q0))

/-- The gradient tensor on W returned by
TT.grad(cost, params, consider_constant=[chain_end]) (source line 237);
the theorem for claim C1 proves it is the true partial derivative of
cdCost in every filter coordinate, with the chain end held constant. -/
def ttGradW {K : Type} [Field K] (ops : ScalarOps K) (m : CRBM K)
    (chainEnd : Tens K) : Tens K :=
  { shape := m.W.shape
    dat := fun k ch p q =>
      batchMean (m.input.dim 0) (fun n => dFEW ops m m.input n k ch p q) -
      batchMean (chainEnd.dim 0) (fun n => dFEW ops m chainEnd n k ch p q) }

/-- The gradient tensor on hbias returned by TT.grad (source line 237). -/
def ttGradHbias {K : Type} [Field K] (ops : ScalarOps K) (m : CRBM K)
    (chainEnd : Tens K) : Tens K :=
  { shape := m.hbias.shape
    dat := fun k _ _ _ =>
      batchMean (m.input.dim 0) (fun n => dFEhbias ops m m.input n k) -
      batchMean (chainEnd.dim 0) (fun n => dFEhbias ops m chainEnd n k) }

/-- The gradient tensor on vbias returned by TT.grad (source line 237). -/
def ttGradVbias {K : Type} [Field K] (m : CRBM K)
    (chainEnd : Tens K) : Tens K :=
  { shape := m.vbias.shape
    dat := fun ch _ _ _ =>
      batchMean (m.input.dim 0) (fun n => dFEvbias m.input n ch) -
      batchMean (chainEnd.dim 0) (fun n => dFEvbias chainEnd n ch) }

/-- The updates dictionary: one optional new value per shared variable that
the code can touch (the three model parameters, the persistent chain state,
the random stream of the scan, and the bit_i_idx counter of the
pseudo-likelihood monitor). -/
structure Updates (K : Type) where
  uW : Option (Tens K) := none
  uHbias : Option (Tens K) := none
  uVbias : Option (Tens K) := none
  uPersistent : Option (Tens K) := none
  rngCounter : Option ℕ := none
  uBitIdx : Option ℕ := none

/-- get_reconstruction_cost (source lines 283-319): batch mean of the
cross entropy between the input and the sigmoid of the final pre-sigmoid
visible activation; sigmoid and log are applied here, outside the scan. -/
def get_reconstruction_cost {K : Type} [Field K] (ops : ScalarOps K)
    (m : CRBM K) (_updates : Updates K) (preSigmoidNV : Tens K) : K :=
  batchMean (m.input.dim 0) (fun n =>
    ∑ c ∈ Finset.range (m.input.dim 1),
      ∑ h2 ∈ Finset.range (m.input.dim 2),
        ∑ w2 ∈ Finset.range (m.input.dim 3),
          (m.input.dat n c h2 w2 * ops.lg (ops.sig (preSigmoidNV.dat n c h2 w2)) +
            (1 - m.input.dat n c h2 w2) *
              ops.lg (1 - ops.sig (preSigmoidNV.dat n c h2 w2))))

/-- TT.set_subtensor(xi[:, idx], 1 - xi[:, idx]) (source line 270). -/
def flipSlice {K : Type} [Field K] (x : Tens K) (idx : ℕ) : Tens K :=
  { shape := x.shape
    dat := fun n c h2 w2 =>
      if c = idx then 1 - x.dat n c h2 w2 else x.dat n c h2 w2 }

/-- get_pseudo_likelihood_cost (source lines 255-281).  The symbolic graph
for the flipped-bit free energies is built, and then line 276 reads
self.n_visible, an attribute __init__ never assigns, so on every CRBM
constructed by the class this raises AttributeError. -/
def get_pseudo_likelihood_cost {K : Type} [Field K] (ops : ScalarOps K)
    (m : CRBM K) (updates : Updates K) : Except PyErr (K × Updates K) :=
  let bitIdx : ℕ := 0
  let xi := m.input.emap ops.rnd
  let feXi := free_energy ops m xi
  let xiFlip := flipSlice xi bitIdx
  let feFlip := free_energy ops m xiFlip
  match m.nVisible with
  | none => Except.error PyErr.attributeError
  | some nv =>
    let cost := batchMean (m.input.dim 0) (fun n =>
      (nv : K) * ops.lg (ops.sig (feFlip.dat n 0 0 0 - feXi.dat n 0 0 0)))
    Except.ok (cost, { updates with uBitIdx := some ((bitIdx + 1) % nv) })

/-- get_cost_updates (source lines 186-253): positive phase, k-step Gibbs
chain started from the fresh hidden sample (CD) or the persistent state
(PCD), gradient updates for W, hbias and vbias from TT.grad with the chain
end held constant, the persistent-state update, and the monitoring cost. -/
def get_cost_updates {K : Type} [Field K] (ops : ScalarOps K) (m : CRBM K)
    (rng : ℕ → Tens K → Tens K) (lr : K) (k : ℕ)
    (persistent : Option (Tens K)) (t0 : ℕ) : Except PyErr (K × Updates K) :=
  let pos := sample_h_given_v ops m rng t0 m.input
  let phSample := pos.1.2.2
  let chainStart : Tens K :=
    match persistent with
    | none => phSample
    | some p => p
  let scanRes := gibbsScan ops m rng k pos.2 chainStart
  match scanRes.1.getLast? with
  | none => Except.error PyErr.indexError
  | some lastOut =>
    let chainEnd := lastOut.vSample
    let gW := ttGradW ops m chainEnd
    let gH := ttGradHbias ops m chainEnd
    let gV := ttGradVbias m chainEnd
    let updates1 : Updates K :=
      { uW := some (m.W.sub (gW.smul lr))
        uHbias := some (m.hbias.sub (gH.smul lr))
        uVbias := some (m.vbias.sub (gV.smul lr))
        uPersistent := none
        rngCounter := some scanRes.2
        uBitIdx := none }
    match persistent with
    | some _ =>
      get_pseudo_likelihood_cost ops m
        { updates1 with uPersistent := some lastOut.hSample }
    | none =>
      Except.ok (get_reconstruction_cost ops m updates1 lastOut.preV, updates1)

/-- The model with one hidden-bias coordinate replaced by θ; used to state
what a partial derivative of the cost in that coordinate means. -/
def CRBM.setHbiasAt {K : Type} (m : CRBM K) (k0 : ℕ) (θ : K) : CRBM K :=
  { m with hbias :=
      { shape := m.hbias.shape
        dat := fun a b c d => if a = k0 then θ else m.hbias.dat a b c d } }

/-- The model with one visible-bias coordinate replaced by θ. -/
def CRBM.setVbiasAt {K : Type} (m : CRBM K) (c0 : ℕ) (θ : K) : CRBM K :=
  { m with vbias :=
      { shape := m.vbias.shape
        dat := fun a b c d => if a = c0 then θ else m.vbias.dat a b c d } }

/-- The model with one filter coordinate W[k0, c0, p0, q0] replaced by θ. -/
def CRBM.setWAt {K : Type} (m : CRBM K) (k0 c0 p0 q0 : ℕ) (θ : K) : CRBM K :=
  { m with W :=
      { shape := m.W.shape
        dat := fun a b c d =>
          if a = k0 ∧ b = c0 ∧ c = p0 ∧ d = q0 then θ
          else m.W.dat a b c d } }

/-- The i-th step of the chain that starts at start with call counter t0:
the explicit iteration of gibbs_hvh that theano.scan unrolls. -/
def gibbsIterate {K : Type} [Field K] (ops : ScalarOps K) (m : CRBM K)
    (rng : ℕ → Tens K → Tens K) (t0 : ℕ) (start : Tens K) :
    ℕ → GibbsOut K
  | 0 => (gibbs_hvh ops m rng t0 start).1
  | Nat.succ i =>
    (gibbs_hvh ops m rng (t0 + 2 * (i + 1))
      (gibbsIterate ops m rng t0 start i).hSample).1

/-- The free energy exactly as the specification words it: one scalar per
batch element, minus the sum over output maps, height and width of
softplus of conv_upward, minus the dot product of the per-channel sum of
the visibles with the visible bias. -/
def specFreeEnergy {K : Type} [Field K] (ops : ScalarOps K) (m : CRBM K)
    (v : Tens K) (n : ℕ) : K :=
  -(∑ k ∈ Finset.range ((conv_upward m v).dim 1),
      ∑ i ∈ Finset.range ((conv_upward m v).dim 2),
        ∑ j ∈ Finset.range ((conv_upward m v).dim 3),
          ops.sp ((conv_upward m v).dat n k i j))
  - ∑ ch ∈ Finset.range (v.dim 1),
      (∑ h2 ∈ Finset.range (v.dim 2), ∑ w2 ∈ Finset.range (v.dim 3),
        v.dat n ch h2 w2) * m.vbias.dat ch 0 0 0

/-- The monitoring cost exactly as the specification words it: the batch
mean over examples of the sum over channels, height and width of
input * log(sigmoid(pre)) + (1 - input) * log(1 - sigmoid(pre)). -/
def specReconCost {K : Type} [Field K] (ops : ScalarOps K) (m : CRBM K)
    (pre : Tens K) : K :=
  batchMean (m.input.dim 0) (fun n =>
    ∑ c ∈ Finset.range (m.input.dim 1),
      ∑ h2 ∈ Finset.range (m.input.dim 2),
        ∑ w2 ∈ Finset.range (m.input.dim 3),
          (m.input.dat n c h2 w2 * ops.lg (ops.sig (pre.dat n c h2 w2)) +
            (1 - m.input.dat n c h2 w2) *
              ops.lg (1 - ops.sig (pre.dat n c h2 w2))))

/-- Rational scalar operations with placeholder nonlinearities, enough to
evaluate the structural claims on concrete inputs. -/
def opsQ : ScalarOps ℚ :=
  { sp := fun x => x, sig := fun x => x, lg := fun x => x
    rnd := fun x => x, sqrt := fun x => x }

/-- A deterministic sampling stream: the sample is the mean tensor. -/
def rngQ : ℕ → Tens ℚ → Tens ℚ := fun _ p => p

/-- A tensor of the given shape that is 1 everywhere. -/
def onesT (s : List ℕ) : Tens ℚ :=
  { shape := s, dat := fun _ _ _ _ => 1 }

/-- A tiny concrete CRBM over the rationals, as built by CRBM.__init__ with
FS = IS = [1, 1, 1, 1]; n_visible is absent, as in every constructed CRBM. -/
def mQ : CRBM ℚ :=
  { input := onesT [1, 1, 1, 1]
    W := onesT [1, 1, 1, 1]
    hbias := zerosVec 1
    vbias := zerosVec 1
    FS := { s0 := 1, s1 := 1, s2 := 1, s3 := 1 }
    IS := { s0 := 1, s1 := 1, s2 := 1, s3 := 1 }
    nVisible := none }

/-- The real softplus and sigmoid supplied by the framework. -/
noncomputable def opsR : ScalarOps ℝ :=
  { sp := fun x => Real.log (1 + Real.exp x)
    sig := fun x => Real.exp x / (1 + Real.exp x)
    lg := Real.log
    rnd := fun x => ((round x : ℤ) : ℝ)
    sqrt := Real.sqrt }

/-- A concrete real CRBM for the gradient witness. -/
def mR : CRBM ℝ :=
  { input := { shape := [1, 1, 1, 1], dat := fun _ _ _ _ => 1 }
    W := { shape := [1, 1, 1, 1], dat := fun _ _ _ _ => 1 }
    hbias := { shape := [1], dat := fun _ _ _ _ => 0 }
    vbias := { shape := [1], dat := fun _ _ _ _ => 0 }
    FS := { s0 := 1, s1 := 1, s2 := 1, s3 := 1 }
    IS := { s0 := 1, s1 := 1, s2 := 1, s3 := 1 }
    nVisible := none }

/-- A concrete chain-end tensor for the gradient witness. -/
def ceR : Tens ℝ :=
  { shape := [1, 1, 1, 1], dat := fun _ _ _ _ => 0 }

/-- Explicit form of the free energy of batch element n, with the summation
ranges written through the filter and input dimensions. -/
theorem feVal_explicit {K : Type} [Field K] (ops : ScalarOps K) (m : CRBM K)
    (v : Tens K) (n : ℕ) :
    feVal ops m v n =
      -(∑ k ∈ Finset.range (m.W.dim 0),
          ∑ i ∈ Finset.range (v.dim 2 - m.W.dim 2 + 1),
            ∑ j ∈ Finset.range (v.dim 3 - m.W.dim 3 + 1),
              ops.sp (upAt m v n k i j))
      - ∑ ch ∈ Finset.range (v.dim 1),
          (∑ h2 ∈ Finset.range (v.dim 2), ∑ w2 ∈ Finset.range (v.dim 3),
            v.dat n ch h2 w2) * m.vbias.dat ch 0 0 0 := rfl

/-- conv_upward splits into the bias-free convolution plus the bias. -/
theorem upAt_eq {K : Type} [Field K] (m : CRBM K) (v : Tens K)
    (n k i j : ℕ) :
    upAt m v n k i j = convPart m v n k i j + m.hbias.dat k 0 0 0 := rfl

/-- One Gibbs step advances the sampling counter by exactly two. -/
theorem gibbs_hvh_counter {K : Type} [Field K] (ops : ScalarOps K)
    (m : CRBM K) (rng : ℕ → Tens K → Tens K) (t : ℕ) (h0 : Tens K) :
    (gibbs_hvh ops m rng t h0).2 = t + 2 := rfl

/-- Unfolding the scan once. -/
theorem gibbsScan_succ {K : Type} [Field K] (ops : ScalarOps K) (m : CRBM K)
    (rng : ℕ → Tens K → Tens K) (k t : ℕ) (h0 : Tens K) :
    gibbsScan ops m rng (k + 1) t h0 =
      ((gibbs_hvh ops m rng t h0).1 ::
        (gibbsScan ops m rng k (t + 2) (gibbs_hvh ops m rng t h0).1.hSample).1,
       (gibbsScan ops m rng k (t + 2) (gibbs_hvh ops m rng t h0).1.hSample).2) :=
  rfl

/-- The scan performs k steps: the list of per-step outputs has length k. -/
theorem gibbsScan_length {K : Type} [Field K] (ops : ScalarOps K)
    (m : CRBM K) (rng : ℕ → Tens K → Tens K) :
    ∀ (k t : ℕ) (h0 : Tens K), (gibbsScan ops m rng k t h0).1.length = k := by
  intro k
  induction k with
  | zero => intro t h0; rfl
  | succ k ih =>
    intro t h0
    rw [gibbsScan_succ]
    simp [ih]

/-- The scan advances the sampling counter by two per step. -/
theorem gibbsScan_counter {K : Type} [Field K] (ops : ScalarOps K)
    (m : CRBM K) (rng : ℕ → Tens K → Tens K) :
    ∀ (k t : ℕ) (h0 : Tens K), (gibbsScan ops m rng k t h0).2 = t + 2 * k := by
  intro k
  induction k with
  | zero => intro t h0; rfl
  | succ k ih =>
    intro t h0
    rw [gibbsScan_succ]
    simp only [ih]
    omega

/-- Shifting the base point of the explicit iteration by one step. -/
theorem gibbsIterate_shift {K : Type} [Field K] (ops : ScalarOps K)
    (m : CRBM K) (rng : ℕ → Tens K → Tens K) (t0 : ℕ) (start : Tens K) :
    ∀ i : ℕ,
      gibbsIterate ops m rng (t0 + 2) (gibbs_hvh ops m rng t0 start).1.hSample i =
        gibbsIterate ops m rng t0 start (i + 1) := by
  intro i
  induction i with
  | zero =>
    show (gibbs_hvh ops m rng (t0 + 2) _).1 = (gibbs_hvh ops m rng (t0 + 2 * 1) _).1
    norm_num [gibbsIterate]
  | succ i ih =>
    show (gibbs_hvh ops m rng (t0 + 2 + 2 * (i + 1)) _).1 =
      (gibbs_hvh ops m rng (t0 + 2 * (i + 1 + 1)) _).1
    rw [ih]
    have harith : t0 + 2 + 2 * (i + 1) = t0 + 2 * (i + 1 + 1) := by omega
    rw [harith]

/-- Element i of the scanned chain is the i-th explicit Gibbs iterate. -/
theorem gibbsScan_get {K : Type} [Field K] (ops : ScalarOps K) (m : CRBM K)
    (rng : ℕ → Tens K → Tens K) :
    ∀ (k t : ℕ) (h0 : Tens K) (i : ℕ), i < k →
      (gibbsScan ops m rng k t h0).1[i]? =
        some (gibbsIterate ops m rng t h0 i) := by
  intro k
  induction k with
  | zero => intro t h0 i hi; omega
  | succ k ih =>
    intro t h0 i hi
    rw [gibbsScan_succ]
    cases i with
    | zero => simp [gibbsIterate]
    | succ i =>
      have hik : i < k := by omega
      have := ih (t + 2) (gibbs_hvh ops m rng t h0).1.hSample i hik
      simp only [List.getElem?_cons_succ]
      rw [this, gibbsIterate_shift]

/-- The last element of a k+1-step chain is the k-th explicit iterate. -/
theorem gibbsScan_getLast {K : Type} [Field K] (ops : ScalarOps K)
    (m : CRBM K) (rng : ℕ → Tens K → Tens K) :
    ∀ (k t : ℕ) (h0 : Tens K),
      (gibbsScan ops m rng (k + 1) t h0).1.getLast? =
        some (gibbsIterate ops m rng t h0 k) := by
  intro k t h0
  have hlen : (gibbsScan ops m rng (k + 1) t h0).1.length = k + 1 :=
    gibbsScan_length ops m rng (k + 1) t h0
  have hget := gibbsScan_get ops m rng (k + 1) t h0 k (Nat.lt_succ_self k)
  rw [List.getLast?_eq_getElem?, hlen]
  simpa using hget

/-- Derivative of a triple softplus sum in the bias coordinate k0: the one
active row contributes the sigmoid of its pre-activation. -/
theorem hasDerivAt_softplus_sum (ops : ScalarOps ℝ)
    (hsp : ∀ x, HasDerivAt ops.sp (ops.sig x) x)
    (nf oh ow : ℕ) (c : ℕ → ℕ → ℕ → ℝ) (hb : ℕ → ℝ) (k0 : ℕ)
    (hk0 : k0 < nf) :
    HasDerivAt
      (fun θ => ∑ k ∈ Finset.range nf, ∑ i ∈ Finset.range oh,
        ∑ j ∈ Finset.range ow, ops.sp (c k i j + (if k = k0 then θ else hb k)))
      (∑ i ∈ Finset.range oh, ∑ j ∈ Finset.range ow, ops.sig (c k0 i j + hb k0))
      (hb k0) := by
  have hmain : HasDerivAt
      (fun θ => ∑ k ∈ Finset.range nf, ∑ i ∈ Finset.range oh,
        ∑ j ∈ Finset.range ow, ops.sp (c k i j + (if k = k0 then θ else hb k)))
      (∑ k ∈ Finset.range nf,
        if k = k0 then
          ∑ i ∈ Finset.range oh, ∑ j ∈ Finset.range ow, ops.sig (c k i j + hb k)
        else 0)
      (hb k0) := by
    apply HasDerivAt.sum
    intro k _
    by_cases hkk : k = k0
    · subst hkk
      simp only [eq_self_iff_true, ite_true]
      apply HasDerivAt.sum
      intro i _
      apply HasDerivAt.sum
      intro j _
      have h1 : HasDerivAt (fun θ : ℝ => c k i j + θ) 1 (hb k) :=
        HasDerivAt.const_add _ (hasDerivAt_id _)
      simpa using (hsp (c k i j + hb k)).comp (hb k) h1
    · simp only [if_neg hkk]
      exact hasDerivAt_const _ _
  have hcollapse : (∑ k ∈ Finset.range nf,
      if k = k0 then
        ∑ i ∈ Finset.range oh, ∑ j ∈ Finset.range ow, ops.sig (c k i j + hb k)
      else 0) =
      ∑ i ∈ Finset.range oh, ∑ j ∈ Finset.range ow, ops.sig (c k0 i j + hb k0) := by
    rw [Finset.sum_ite_eq' (Finset.range nf) k0]
    simp [Finset.mem_range.2 hk0]
  rw [← hcollapse]
  exact hmain

/-- Derivative of a dot product in the coordinate c0 of its right factor. -/
theorem hasDerivAt_dot_sum (C : ℕ) (s vb : ℕ → ℝ) (c0 : ℕ) (hc0 : c0 < C) :
    HasDerivAt
      (fun θ => ∑ ch ∈ Finset.range C, s ch * (if ch = c0 then θ else vb ch))
      (s c0) (vb c0) := by
  have hmain : HasDerivAt
      (fun θ => ∑ ch ∈ Finset.range C, s ch * (if ch = c0 then θ else vb ch))
      (∑ ch ∈ Finset.range C, if ch = c0 then s ch else 0) (vb c0) := by
    apply HasDerivAt.sum
    intro ch _
    by_cases hcc : ch = c0
    · subst hcc
      simp only [eq_self_iff_true, ite_true]
      simpa using (hasDerivAt_id (vb ch)).const_mul (s ch)
    · simp only [if_neg hcc]
      exact hasDerivAt_const _ _
  have hcollapse : (∑ ch ∈ Finset.range C, if ch = c0 then s ch else 0) = s c0 := by
    rw [Finset.sum_ite_eq' (Finset.range C) c0]
    simp [Finset.mem_range.2 hc0]
  rw [← hcollapse]
  exact hmain

/-- Derivative of the softplus-of-convolution sum in one filter coordinate
W[k0, c0, p0, q0].  Because the kernel is flipped, the active summand of the
convolution is at p = fh-1-p0, q = fw-1-q0, so row (i, j) contributes the
sigmoid of its pre-activation times the visible entry at
(c0, i + (fh-1-p0), j + (fw-1-q0)). -/
theorem hasDerivAt_conv_sum (ops : ScalarOps ℝ)
    (hsp : ∀ x, HasDerivAt ops.sp (ops.sig x) x)
    (nf oh ow C fh fw : ℕ) (vv : ℕ → ℕ → ℕ → ℝ) (w : ℕ → ℕ → ℕ → ℕ → ℝ)
    (hb : ℕ → ℝ) (k0 c0 p0 q0 : ℕ)
    (hk0 : k0 < nf) (hc0 : c0 < C) (hp0 : p0 < fh) (hq0 : q0 < fw) :
    HasDerivAt
      (fun θ => ∑ k ∈ Finset.range nf, ∑ i ∈ Finset.range oh,
        ∑ j ∈ Finset.range ow,
          ops.sp ((∑ ch ∈ Finset.range C, ∑ p ∈ Finset.range fh,
            ∑ q ∈ Finset.range fw,
              vv ch (i + p) (j + q) *
                (if k = k0 ∧ ch = c0 ∧ fh - 1 - p = p0 ∧ fw - 1 - q = q0 then θ
                 else w k ch (fh - 1 - p) (fw - 1 - q))) + hb k))
      (∑ i ∈ Finset.range oh, ∑ j ∈ Finset.range ow,
        ops.sig ((∑ ch ∈ Finset.range C, ∑ p ∈ Finset.range fh,
          ∑ q ∈ Finset.range fw,
            vv ch (i + p) (j + q) * w k0 ch (fh - 1 - p) (fw - 1 - q)) + hb k0) *
          vv c0 (i + (fh - 1 - p0)) (j + (fw - 1 - q0)))
      (w k0 c0 p0 q0) := by
  have hinner : ∀ i j : ℕ, HasDerivAt
      (fun θ => (∑ ch ∈ Finset.range C, ∑ p ∈ Finset.range fh,
        ∑ q ∈ Finset.range fw,
          vv ch (i + p) (j + q) *
            (if ch = c0 ∧ fh - 1 - p = p0 ∧ fw - 1 - q = q0 then θ
             else w k0 ch (fh - 1 - p) (fw - 1 - q))) + hb k0)
      (vv c0 (i + (fh - 1 - p0)) (j + (fw - 1 - q0))) (w k0 c0 p0 q0) := by
    intro i j
    have hsum : HasDerivAt
        (fun θ => ∑ ch ∈ Finset.range C, ∑ p ∈ Finset.range fh,
          ∑ q ∈ Finset.range fw,
            vv ch (i + p) (j + q) *
              (if ch = c0 ∧ fh - 1 - p = p0 ∧ fw - 1 - q = q0 then θ
               else w k0 ch (fh - 1 - p) (fw - 1 - q)))
        (∑ ch ∈ Finset.range C, ∑ p ∈ Finset.range fh, ∑ q ∈ Finset.range fw,
          if ch = c0 ∧ fh - 1 - p = p0 ∧ fw - 1 - q = q0 then
            vv ch (i + p) (j + q)
          else 0)
        (w k0 c0 p0 q0) := by
      apply HasDerivAt.sum
      intro ch _
      apply HasDerivAt.sum
      intro p _
      apply HasDerivAt.sum
      intro q _
      by_cases hcond : ch = c0 ∧ fh - 1 - p = p0 ∧ fw - 1 - q = q0
      · simp only [if_pos hcond]
        simpa using (hasDerivAt_id (w k0 c0 p0 q0)).const_mul (vv ch (i + p) (j + q))
      · simp only [if_neg hcond]
        exact hasDerivAt_const _ _
    have hcollapse : (∑ ch ∈ Finset.range C, ∑ p ∈ Finset.range fh,
        ∑ q ∈ Finset.range fw,
          if ch = c0 ∧ fh - 1 - p = p0 ∧ fw - 1 - q = q0 then
            vv ch (i + p) (j + q)
          else 0) =
        vv c0 (i + (fh - 1 - p0)) (j + (fw - 1 - q0)) := by
      rw [Finset.sum_eq_single_of_mem c0 (Finset.mem_range.2 hc0)]
      · rw [Finset.sum_eq_single_of_mem (fh - 1 - p0)
            (Finset.mem_range.2 (by omega))]
        · rw [Finset.sum_eq_single_of_mem (fw - 1 - q0)
              (Finset.mem_range.2 (by omega))]
          · have h1 : fh - 1 - (fh - 1 - p0) = p0 := by omega
            have h2 : fw - 1 - (fw - 1 - q0) = q0 := by omega
            rw [if_pos ⟨rfl, h1, h2⟩]
          · intro q hq hne
            have hcond : ¬(c0 = c0 ∧ fh - 1 - (fh - 1 - p0) = p0 ∧
                fw - 1 - q = q0) := by
              have hq2 := Finset.mem_range.1 hq
              intro hcontr
              exact hne (by omega)
            rw [if_neg hcond]
        · intro p hp hne
          apply Finset.sum_eq_zero
          intro q _
          have hcond : ¬(c0 = c0 ∧ fh - 1 - p = p0 ∧ fw - 1 - q = q0) := by
            have hp2 := Finset.mem_range.1 hp
            intro hcontr
            exact hne (by omega)
          rw [if_neg hcond]
      · intro ch _ hne
        apply Finset.sum_eq_zero
        intro p _
        apply Finset.sum_eq_zero
        intro q _
        have hcond : ¬(ch = c0 ∧ fh - 1 - p = p0 ∧ fw - 1 - q = q0) := by
          intro hcontr
          exact hne hcontr.1
        rw [if_neg hcond]
    have := hsum.add_const (hb k0)
    rw [hcollapse] at this
    exact this
  have hmain : HasDerivAt
      (fun θ => ∑ k ∈ Finset.range nf, ∑ i ∈ Finset.range oh,
        ∑ j ∈ Finset.range ow,
          ops.sp ((∑ ch ∈ Finset.range C, ∑ p ∈ Finset.range fh,
            ∑ q ∈ Finset.range fw,
              vv ch (i + p) (j + q) *
                (if k = k0 ∧ ch = c0 ∧ fh - 1 - p = p0 ∧ fw - 1 - q = q0 then θ
                 else w k ch (fh - 1 - p) (fw - 1 - q))) + hb k))
      (∑ k ∈ Finset.range nf,
        if k = k0 then
          ∑ i ∈ Finset.range oh, ∑ j ∈ Finset.range ow,
            ops.sig ((∑ ch ∈ Finset.range C, ∑ p ∈ Finset.range fh,
              ∑ q ∈ Finset.range fw,
                vv ch (i + p) (j + q) * w k ch (fh - 1 - p) (fw - 1 - q)) + hb k) *
              vv c0 (i + (fh - 1 - p0)) (j + (fw - 1 - q0))
        else 0)
      (w k0 c0 p0 q0) := by
    apply HasDerivAt.sum
    intro k _
    by_cases hkk : k = k0
    · subst hkk
      simp only [eq_self_iff_true, ite_true, true_and]
      apply HasDerivAt.sum
      intro i _
      apply HasDerivAt.sum
      intro j _
      have hbase : (∑ ch ∈ Finset.range C, ∑ p ∈ Finset.range fh,
          ∑ q ∈ Finset.range fw,
            vv ch (i + p) (j + q) *
              (if ch = c0 ∧ fh - 1 - p = p0 ∧ fw - 1 - q = q0 then
                w k c0 p0 q0
               else w k ch (fh - 1 - p) (fw - 1 - q))) =
          ∑ ch ∈ Finset.range C, ∑ p ∈ Finset.range fh, ∑ q ∈ Finset.range fw,
            vv ch (i + p) (j + q) * w k ch (fh - 1 - p) (fw - 1 - q) := by
        apply Finset.sum_congr rfl
        intro ch _
        apply Finset.sum_congr rfl
        intro p _
        apply Finset.sum_congr rfl
        intro q _
        congr 1
        by_cases hcond : ch = c0 ∧ fh - 1 - p = p0 ∧ fw - 1 - q = q0
        · rw [if_pos hcond]
          obtain ⟨h1, h2, h3⟩ := hcond
          rw [h1, h2, h3]
        · rw [if_neg hcond]
      have h2 := (hsp ((∑ ch ∈ Finset.range C, ∑ p ∈ Finset.range fh,
          ∑ q ∈ Finset.range fw,
            vv ch (i + p) (j + q) *
              (if ch = c0 ∧ fh - 1 - p = p0 ∧ fw - 1 - q = q0 then
                w k c0 p0 q0
               else w k ch (fh - 1 - p) (fw - 1 - q))) + hb k)).comp
        (w k c0 p0 q0) (hinner i j)
      rw [hbase] at h2
      simpa using h2
    · simp only [if_neg hkk]
      have hfalse : ∀ ch p q : ℕ,
          (k = k0 ∧ ch = c0 ∧ fh - 1 - p = p0 ∧ fw - 1 - q = q0) = False := by
        intro ch p q
        simp [hkk]
      simp only [hfalse, if_false]
      exact hasDerivAt_const _ _
  have hcollapse : (∑ k ∈ Finset.range nf,
      if k = k0 then
        ∑ i ∈ Finset.range oh, ∑ j ∈ Finset.range ow,
          ops.sig ((∑ ch ∈ Finset.range C, ∑ p ∈ Finset.range fh,
            ∑ q ∈ Finset.range fw,
              vv ch (i + p) (j + q) * w k ch (fh - 1 - p) (fw - 1 - q)) + hb k) *
            vv c0 (i + (fh - 1 - p0)) (j + (fw - 1 - q0))
      else 0) =
      ∑ i ∈ Finset.range oh, ∑ j ∈ Finset.range ow,
        ops.sig ((∑ ch ∈ Finset.range C, ∑ p ∈ Finset.range fh,
          ∑ q ∈ Finset.range fw,
            vv ch (i + p) (j + q) * w k0 ch (fh - 1 - p) (fw - 1 - q)) + hb k0) *
          vv c0 (i + (fh - 1 - p0)) (j + (fw - 1 - q0)) := by
    rw [Finset.sum_ite_eq' (Finset.range nf) k0]
    simp [Finset.mem_range.2 hk0]
  rw [← hcollapse]
  exact hmain

/-- The free energy of batch element n, as a function of hbias entry k0,
has derivative dFEhbias. -/
theorem feVal_deriv_hbias (ops : ScalarOps ℝ)
    (hsp : ∀ x, HasDerivAt ops.sp (ops.sig x) x) (m : CRBM ℝ) (v : Tens ℝ)
    (n k0 : ℕ) (hk0 : k0 < m.W.dim 0) :
    HasDerivAt (fun θ => feVal ops (m.setHbiasAt k0 θ) v n)
      (dFEhbias ops m v n k0) (m.hbias.dat k0 0 0 0) := by
  have hfun : ∀ θ : ℝ, feVal ops (m.setHbiasAt k0 θ) v n =
      -(∑ k ∈ Finset.range (m.W.dim 0),
          ∑ i ∈ Finset.range (v.dim 2 - m.W.dim 2 + 1),
            ∑ j ∈ Finset.range (v.dim 3 - m.W.dim 3 + 1),
              ops.sp (convPart m v n k i j +
                (if k = k0 then θ else m.hbias.dat k 0 0 0)))
      - ∑ ch ∈ Finset.range (v.dim 1),
          (∑ h2 ∈ Finset.range (v.dim 2), ∑ w2 ∈ Finset.range (v.dim 3),
            v.dat n ch h2 w2) * m.vbias.dat ch 0 0 0 := fun θ => rfl
  simp only [hfun]
  have hS := hasDerivAt_softplus_sum ops hsp (m.W.dim 0)
    (v.dim 2 - m.W.dim 2 + 1) (v.dim 3 - m.W.dim 3 + 1)
    (convPart m v n) (fun k => m.hbias.dat k 0 0 0) k0 hk0
  exact (hS.neg).sub_const _

/-- The free energy of batch element n, as a function of vbias entry c0,
has derivative dFEvbias. -/
theorem feVal_deriv_vbias (ops : ScalarOps ℝ) (m : CRBM ℝ) (v : Tens ℝ)
    (n c0 : ℕ) (hc0 : c0 < v.dim 1) :
    HasDerivAt (fun θ => feVal ops (m.setVbiasAt c0 θ) v n)
      (dFEvbias v n c0) (m.vbias.dat c0 0 0 0) := by
  have hfun : ∀ θ : ℝ, feVal ops (m.setVbiasAt c0 θ) v n =
      -(∑ k ∈ Finset.range (m.W.dim 0),
          ∑ i ∈ Finset.range (v.dim 2 - m.W.dim 2 + 1),
            ∑ j ∈ Finset.range (v.dim 3 - m.W.dim 3 + 1),
              ops.sp (upAt m v n k i j))
      - ∑ ch ∈ Finset.range (v.dim 1),
          (∑ h2 ∈ Finset.range (v.dim 2), ∑ w2 ∈ Finset.range (v.dim 3),
            v.dat n ch h2 w2) *
            (if ch = c0 then θ else m.vbias.dat ch 0 0 0) := fun θ => rfl
  simp only [hfun]
  have hdot := hasDerivAt_dot_sum (v.dim 1)
    (fun ch => ∑ h2 ∈ Finset.range (v.dim 2), ∑ w2 ∈ Finset.range (v.dim 3),
      v.dat n ch h2 w2)
    (fun ch => m.vbias.dat ch 0 0 0) c0 hc0
  exact HasDerivAt.const_sub _ hdot

/-- The free energy of batch element n, as a function of filter entry
W[k0, c0, p0, q0], has derivative dFEW. -/
theorem feVal_deriv_W (ops : ScalarOps ℝ)
    (hsp : ∀ x, HasDerivAt ops.sp (ops.sig x) x) (m : CRBM ℝ) (v : Tens ℝ)
    (n k0 c0 p0 q0 : ℕ) (hk0 : k0 < m.W.dim 0) (hc0 : c0 < m.W.dim 1)
    (hp0 : p0 < m.W.dim 2) (hq0 : q0 < m.W.dim 3) :
    HasDerivAt (fun θ => feVal ops (m.setWAt k0 c0 p0 q0 θ) v n)
      (dFEW ops m v n k0 c0 p0 q0) (m.W.dat k0 c0 p0 q0) := by
  have hfun : ∀ θ : ℝ, feVal ops (m.setWAt k0 c0 p0 q0 θ) v n =
      -(∑ k ∈ Finset.range (m.W.dim 0),
          ∑ i ∈ Finset.range (v.dim 2 - m.W.dim 2 + 1),
            ∑ j ∈ Finset.range (v.dim 3 - m.W.dim 3 + 1),
              ops.sp ((∑ ch ∈ Finset.range (m.W.dim 1),
                ∑ p ∈ Finset.range (m.W.dim 2), ∑ q ∈ Finset.range (m.W.dim 3),
                  v.dat n ch (i + p) (j + q) *
                    (if k = k0 ∧ ch = c0 ∧ m.W.dim 2 - 1 - p = p0 ∧
                        m.W.dim 3 - 1 - q = q0 then θ
                     else m.W.dat k ch (m.W.dim 2 - 1 - p) (m.W.dim 3 - 1 - q)))
                + m.hbias.dat k 0 0 0))
      - ∑ ch ∈ Finset.range (v.dim 1),
          (∑ h2 ∈ Finset.range (v.dim 2), ∑ w2 ∈ Finset.range (v.dim 3),
            v.dat n ch h2 w2) * m.vbias.dat ch 0 0 0 := fun θ => rfl
  simp only [hfun]
  have hS := hasDerivAt_conv_sum ops hsp (m.W.dim 0)
    (v.dim 2 - m.W.dim 2 + 1) (v.dim 3 - m.W.dim 3 + 1)
    (m.W.dim 1) (m.W.dim 2) (m.W.dim 3)
    (fun ch y x => v.dat n ch y x) (fun a b c d => m.W.dat a b c d)
    (fun k => m.hbias.dat k 0 0 0) k0 c0 p0 q0 hk0 hc0 hp0 hq0
  exact (hS.neg).sub_const _

/-- Mean free energy as a function of hbias entry k0. -/
theorem meanFE_deriv_hbias (ops : ScalarOps ℝ)
    (hsp : ∀ x, HasDerivAt ops.sp (ops.sig x) x) (m : CRBM ℝ) (v : Tens ℝ)
    (k0 : ℕ) (hk0 : k0 < m.W.dim 0) :
    HasDerivAt (fun θ => meanFE ops (m.setHbiasAt k0 θ) v)
      (batchMean (v.dim 0) (fun n => dFEhbias ops m v n k0))
      (m.hbias.dat k0 0 0 0) := by
  show HasDerivAt
    (fun θ => (∑ n ∈ Finset.range (v.dim 0), feVal ops (m.setHbiasAt k0 θ) v n) /
      ((v.dim 0 : ℕ) : ℝ))
    ((∑ n ∈ Finset.range (v.dim 0), dFEhbias ops m v n k0) / ((v.dim 0 : ℕ) : ℝ))
    (m.hbias.dat k0 0 0 0)
  exact (HasDerivAt.sum
    (fun n _ => feVal_deriv_hbias ops hsp m v n k0 hk0)).div_const _

/-- Mean free energy as a function of vbias entry c0. -/
theorem meanFE_deriv_vbias (ops : ScalarOps ℝ) (m : CRBM ℝ) (v : Tens ℝ)
    (c0 : ℕ) (hc0 : c0 < v.dim 1) :
    HasDerivAt (fun θ => meanFE ops (m.setVbiasAt c0 θ) v)
      (batchMean (v.dim 0) (fun n => dFEvbias v n c0))
      (m.vbias.dat c0 0 0 0) := by
  show HasDerivAt
    (fun θ => (∑ n ∈ Finset.range (v.dim 0), feVal ops (m.setVbiasAt c0 θ) v n) /
      ((v.dim 0 : ℕ) : ℝ))
    ((∑ n ∈ Finset.range (v.dim 0), dFEvbias v n c0) / ((v.dim 0 : ℕ) : ℝ))
    (m.vbias.dat c0 0 0 0)
  exact (HasDerivAt.sum
    (fun n _ => feVal_deriv_vbias ops m v n c0 hc0)).div_const _

/-- Mean free energy as a function of filter entry W[k0, c0, p0, q0]. -/
theorem meanFE_deriv_W (ops : ScalarOps ℝ)
    (hsp : ∀ x, HasDerivAt ops.sp (ops.sig x) x) (m : CRBM ℝ) (v : Tens ℝ)
    (k0 c0 p0 q0 : ℕ) (hk0 : k0 < m.W.dim 0) (hc0 : c0 < m.W.dim 1)
    (hp0 : p0 < m.W.dim 2) (hq0 : q0 < m.W.dim 3) :
    HasDerivAt (fun θ => meanFE ops (m.setWAt k0 c0 p0 q0 θ) v)
      (batchMean (v.dim 0) (fun n => dFEW ops m v n k0 c0 p0 q0))
      (m.W.dat k0 c0 p0 q0) := by
  show HasDerivAt
    (fun θ =>
      (∑ n ∈ Finset.range (v.dim 0), feVal ops (m.setWAt k0 c0 p0 q0 θ) v n) /
        ((v.dim 0 : ℕ) : ℝ))
    ((∑ n ∈ Finset.range (v.dim 0), dFEW ops m v n k0 c0 p0 q0) /
      ((v.dim 0 : ℕ) : ℝ))
    (m.W.dat k0 c0 p0 q0)
  exact (HasDerivAt.sum
    (fun n _ => feVal_deriv_W ops hsp m v n k0 c0 p0 q0 hk0 hc0 hp0 hq0)).div_const _

/-- The CD cost, with the chain end held constant, as a function of hbias
entry k0: its derivative is the corresponding entry of ttGradHbias. -/
theorem cdCost_deriv_hbias (ops : ScalarOps ℝ)
    (hsp : ∀ x, HasDerivAt ops.sp (ops.sig x) x) (m : CRBM ℝ) (ce : Tens ℝ)
    (k0 : ℕ) (hk0 : k0 < m.W.dim 0) :
    HasDerivAt (fun θ => cdCost ops (m.setHbiasAt k0 θ) ce)
      ((ttGradHbias ops m ce).dat k0 0 0 0) (m.hbias.dat k0 0 0 0) := by
  have h1 := meanFE_deriv_hbias ops hsp m m.input k0 hk0
  have h2 := meanFE_deriv_hbias ops hsp m ce k0 hk0
  exact h1.sub h2

/-- The CD cost, with the chain end held constant, as a function of vbias
entry c0: its derivative is the corresponding entry of ttGradVbias. -/
theorem cdCost_deriv_vbias (ops : ScalarOps ℝ) (m : CRBM ℝ) (ce : Tens ℝ)
    (c0 : ℕ) (hc1 : c0 < m.input.dim 1) (hc2 : c0 < ce.dim 1) :
    HasDerivAt (fun θ => cdCost ops (m.setVbiasAt c0 θ) ce)
      ((ttGradVbias m ce).dat c0 0 0 0) (m.vbias.dat c0 0 0 0) := by
  have h1 := meanFE_deriv_vbias ops m m.input c0 hc1
  have h2 := meanFE_deriv_vbias ops m ce c0 hc2
  exact h1.sub h2

/-- The CD cost, with the chain end held constant, as a function of filter
entry W[k0, c0, p0, q0]: its derivative is the corresponding entry of
ttGradW. -/
theorem cdCost_deriv_W (ops : ScalarOps ℝ)
    (hsp : ∀ x, HasDerivAt ops.sp (ops.sig x) x) (m : CRBM ℝ) (ce : Tens ℝ)
    (k0 c0 p0 q0 : ℕ) (hk0 : k0 < m.W.dim 0) (hc0 : c0 < m.W.dim 1)
    (hp0 : p0 < m.W.dim 2) (hq0 : q0 < m.W.dim 3) :
    HasDerivAt (fun θ => cdCost ops (m.setWAt k0 c0 p0 q0 θ) ce)
      ((ttGradW ops m ce).dat k0 c0 p0 q0) (m.W.dat k0 c0 p0 q0) := by
  have h1 := meanFE_deriv_W ops hsp m m.input k0 c0 p0 q0 hk0 hc0 hp0 hq0
  have h2 := meanFE_deriv_W ops hsp m ce k0 c0 p0 q0 hk0 hc0 hp0 hq0
  exact h1.sub h2

/-- The real softplus has the real sigmoid as derivative everywhere. -/
theorem opsR_sp_deriv : ∀ x : ℝ, HasDerivAt opsR.sp (opsR.sig x) x := by
  intro x
  have hpos : (0 : ℝ) < 1 + Real.exp x := by positivity
  have h1 : HasDerivAt (fun y : ℝ => 1 + Real.exp y) (Real.exp x) x :=
    HasDerivAt.const_add 1 (Real.hasDerivAt_exp x)
  have h2 := (Real.hasDerivAt_log (ne_of_gt hpos)).comp x h1
  have h3 : (1 + Real.exp x)⁻¹ * Real.exp x = Real.exp x / (1 + Real.exp x) := by
    rw [div_eq_mul_inv, mul_comm]
  show HasDerivAt (fun y => Real.log (1 + Real.exp y))
    (Real.exp x / (1 + Real.exp x)) x
  rw [← h3]
  simpa using h2

/-- Sampling the hiddens advances the call counter by one. -/
theorem sample_h_counter {K : Type} [Field K] (ops : ScalarOps K)
    (m : CRBM K) (rng : ℕ → Tens K → Tens K) (t : ℕ) (v0 : Tens K) :
    (sample_h_given_v ops m rng t v0).2 = t + 1 := rfl

/-- Unfolding get_cost_updates in the CD branch (persistent = None) for a
chain of j+1 steps: the monitoring cost is the reconstruction cost at the
final pre-sigmoid visible activation, and each parameter update subtracts
the learning rate times its TT.grad gradient taken at the chain end. -/
theorem get_cost_updates_cd_eq {K : Type} [Field K] (ops : ScalarOps K)
    (m : CRBM K) (rng : ℕ → Tens K → Tens K) (lr : K) (j t0 : ℕ) :
    get_cost_updates ops m rng lr (j + 1) none t0 =
      Except.ok
        (get_reconstruction_cost ops m
          { uW := some (m.W.sub ((ttGradW ops m
              (gibbsIterate ops m rng (t0 + 1)
                ((sample_h_given_v ops m rng t0 m.input).1.2.2) j).vSample).smul lr))
            uHbias := some (m.hbias.sub ((ttGradHbias ops m
              (gibbsIterate ops m rng (t0 + 1)
                ((sample_h_given_v ops m rng t0 m.input).1.2.2) j).vSample).smul lr))
            uVbias := some (m.vbias.sub ((ttGradVbias m
              (gibbsIterate ops m rng (t0 + 1)
                ((sample_h_given_v ops m rng t0 m.input).1.2.2) j).vSample).smul lr))
            uPersistent := none
            rngCounter := some (t0 + 1 + 2 * (j + 1))
            uBitIdx := none }
          (gibbsIterate ops m rng (t0 + 1)
            ((sample_h_given_v ops m rng t0 m.input).1.2.2) j).preV,
        { uW := some (m.W.sub ((ttGradW ops m
            (gibbsIterate ops m rng (t0 + 1)
              ((sample_h_given_v ops m rng t0 m.input).1.2.2) j).vSample).smul lr))
          uHbias := some (m.hbias.sub ((ttGradHbias ops m
            (gibbsIterate ops m rng (t0 + 1)
              ((sample_h_given_v ops m rng t0 m.input).1.2.2) j).vSample).smul lr))
          uVbias := some (m.vbias.sub ((ttGradVbias m
            (gibbsIterate ops m rng (t0 + 1)
              ((sample_h_given_v ops m rng t0 m.input).1.2.2) j).vSample).smul lr))
          uPersistent := none
          rngCounter := some (t0 + 1 + 2 * (j + 1))
          uBitIdx := none }) := by
  simp only [get_cost_updates, sample_h_counter]
  rw [gibbsScan_getLast]
  simp only [gibbsScan_counter]

/-- Unfolding get_cost_updates in the PCD branch (persistent supplied) for a
chain of j+1 steps: the chain starts at the persistent state, the updates
dictionary additionally maps the persistent variable to the final hidden
sample, and the result is whatever get_pseudo_likelihood_cost returns. -/
theorem get_cost_updates_pcd_eq {K : Type} [Field K] (ops : ScalarOps K)
    (m : CRBM K) (rng : ℕ → Tens K → Tens K) (lr : K) (j t0 : ℕ)
    (p : Tens K) :
    get_cost_updates ops m rng lr (j + 1) (some p) t0 =
      get_pseudo_likelihood_cost ops m
        { uW := some (m.W.sub ((ttGradW ops m
            (gibbsIterate ops m rng (t0 + 1) p j).vSample).smul lr))
          uHbias := some (m.hbias.sub ((ttGradHbias ops m
            (gibbsIterate ops m rng (t0 + 1) p j).vSample).smul lr))
          uVbias := some (m.vbias.sub ((ttGradVbias m
            (gibbsIterate ops m rng (t0 + 1) p j).vSample).smul lr))
          uPersistent := some (gibbsIterate ops m rng (t0 + 1) p j).hSample
          rngCounter := some (t0 + 1 + 2 * (j + 1))
          uBitIdx := none } := by
  simp only [get_cost_updates, sample_h_counter]
  rw [gibbsScan_getLast]
  simp only [gibbsScan_counter]

/-- Claim C1: for every CRBM, get_cost_updates builds the CD-k/PCD-k cost
as the mean free energy of the input minus the mean free energy of the
visible sample at the end of the Gibbs chain, and the parameter gradients
used in the updates are the true partial derivatives of this cost in every
parameter coordinate with the chain end held constant (it is a free
variable of the differentiated function), so no gradient flows through the
Gibbs sampling.  The hypothesis relating softplus and sigmoid is the
framework derivative rule, proved for the real functions in
opsR_sp_deriv. -/
theorem claim_C1 (ops : ScalarOps ℝ)
    (hsp : ∀ x, HasDerivAt ops.sp (ops.sig x) x) (m : CRBM ℝ) (ce : Tens ℝ) :
    (cdCost ops m ce = meanFE ops m m.input - meanFE ops m ce) ∧
    (∀ k0, k0 < m.W.dim 0 →
      HasDerivAt (fun θ => cdCost ops (m.setHbiasAt k0 θ) ce)
        ((ttGradHbias ops m ce).dat k0 0 0 0) (m.hbias.dat k0 0 0 0)) ∧
    (∀ c0, c0 < m.input.dim 1 → c0 < ce.dim 1 →
      HasDerivAt (fun θ => cdCost ops (m.setVbiasAt c0 θ) ce)
        ((ttGradVbias m ce).dat c0 0 0 0) (m.vbias.dat c0 0 0 0)) ∧
    (∀ k0 c0 p0 q0, k0 < m.W.dim 0 → c0 < m.W.dim 1 → p0 < m.W.dim 2 →
      q0 < m.W.dim 3 →
      HasDerivAt (fun θ => cdCost ops (m.setWAt k0 c0 p0 q0 θ) ce)
        ((ttGradW ops m ce).dat k0 c0 p0 q0) (m.W.dat k0 c0 p0 q0)) :=
  ⟨rfl,
   fun k0 h => cdCost_deriv_hbias ops hsp m ce k0 h,
   fun c0 h1 h2 => cdCost_deriv_vbias ops m ce c0 h1 h2,
   fun k0 c0 p0 q0 h1 h2 h3 h4 =>
     cdCost_deriv_W ops hsp m ce k0 c0 p0 q0 h1 h2 h3 h4⟩

/-- Witness for claim C1 at the real softplus and sigmoid and a concrete
one-by-one model. -/
theorem claim_C1_witness :
    HasDerivAt (fun θ => cdCost opsR (mR.setHbiasAt 0 θ) ceR)
      ((ttGradHbias opsR mR ceR).dat 0 0 0 0) (mR.hbias.dat 0 0 0 0) ∧
    HasDerivAt (fun θ => cdCost opsR (mR.setWAt 0 0 0 0 θ) ceR)
      ((ttGradW opsR mR ceR).dat 0 0 0 0) (mR.W.dat 0 0 0 0) :=
  ⟨(claim_C1 opsR opsR_sp_deriv mR ceR).2.1 0 (by decide),
   (claim_C1 opsR opsR_sp_deriv mR ceR).2.2.2 0 0 0 0 (by decide) (by decide)
     (by decide) (by decide)⟩

/-- Claim C2: free_energy returns one scalar per batch element, equal to
minus the sum over output maps, height and width of softplus of
conv_upward, minus the dot product of the per-channel sum of the visibles
with the visible bias. -/
theorem claim_C2 {K : Type} [Field K] (ops : ScalarOps K) (m : CRBM K)
    (v : Tens K) :
    (free_energy ops m v).shape = [v.dim 0] ∧
    ∀ n : ℕ, (free_energy ops m v).dat n 0 0 0 = specFreeEnergy ops m v n :=
  ⟨rfl, fun _ => rfl⟩

/-- Claim C3: the scan performs exactly k iterations of gibbs_hvh, each
step sampling the visibles given the hiddens and then the hiddens given
those visibles; the chain starts from the fresh hidden sample when
persistent is None and from the persistent state when it is given. -/
theorem claim_C3 {K : Type} [Field K] (ops : ScalarOps K) (m : CRBM K)
    (rng : ℕ → Tens K → Tens K) (t0 k : ℕ) (_hk : 1 ≤ k)
    (persistent : Option (Tens K)) :
    let phSample := (sample_h_given_v ops m rng t0 m.input).1.2.2
    let start := persistent.getD phSample
    let outs := (gibbsScan ops m rng k (t0 + 1) start).1
    outs.length = k ∧
    (∀ i, i < k → outs[i]? = some (gibbsIterate ops m rng (t0 + 1) start i)) ∧
    (gibbsScan ops m rng k (t0 + 1) start).2 = t0 + 1 + 2 * k ∧
    (∀ (t : ℕ) (h0 : Tens K),
      (gibbs_hvh ops m rng t h0).1.vSample =
        (sample_v_given_h ops m rng t h0).1.2.2 ∧
      (gibbs_hvh ops m rng t h0).1.hSample =
        (sample_h_given_v ops m rng (t + 1)
          ((sample_v_given_h ops m rng t h0).1.2.2)).1.2.2) := by
  intro phSample start outs
  exact ⟨gibbsScan_length ops m rng k (t0 + 1) start,
    fun i hi => gibbsScan_get ops m rng k (t0 + 1) start i hi,
    gibbsScan_counter ops m rng k (t0 + 1) start,
    fun t h0 => ⟨rfl, rfl⟩⟩

/-- Witness for claim C3 on a concrete one-step CD chain. -/
theorem claim_C3_witness :
    let phSample := (sample_h_given_v opsQ mQ rngQ 0 mQ.input).1.2.2
    let start := (none : Option (Tens ℚ)).getD phSample
    let outs := (gibbsScan opsQ mQ rngQ 1 1 start).1
    outs.length = 1 ∧
    (∀ i, i < 1 → outs[i]? = some (gibbsIterate opsQ mQ rngQ 1 start i)) ∧
    (gibbsScan opsQ mQ rngQ 1 1 start).2 = 1 + 2 * 1 ∧
    (∀ (t : ℕ) (h0 : Tens ℚ),
      (gibbs_hvh opsQ mQ rngQ t h0).1.vSample =
        (sample_v_given_h opsQ mQ rngQ t h0).1.2.2 ∧
      (gibbs_hvh opsQ mQ rngQ t h0).1.hSample =
        (sample_h_given_v opsQ mQ rngQ (t + 1)
          ((sample_v_given_h opsQ mQ rngQ t h0).1.2.2)).1.2.2) :=
  claim_C3 opsQ mQ rngQ 0 1 (by decide) none

/-- Claim C4: for a CD-k call with k at least 1, the returned updates set
each of W, hbias and vbias to its old value minus the learning rate times
the TT.grad gradient of the CD cost at the chain end, and no other model
parameter is touched: the model parameters are exactly W, hbias and vbias,
and the updates leave the persistent slot and the bit counter empty. -/
theorem claim_C4 {K : Type} [Field K] (ops : ScalarOps K) (m : CRBM K)
    (rng : ℕ → Tens K → Tens K) (lr : K) (k t0 : ℕ) (hk : 1 ≤ k) :
    m.params = [PName.W, PName.hbias, PName.vbias] ∧
    ∃ cost : K,
      get_cost_updates ops m rng lr k none t0 =
        Except.ok (cost,
          { uW := some (m.W.sub ((ttGradW ops m
              (gibbsIterate ops m rng (t0 + 1)
                ((sample_h_given_v ops m rng t0 m.input).1.2.2) (k - 1)).vSample).smul lr))
            uHbias := some (m.hbias.sub ((ttGradHbias ops m
              (gibbsIterate ops m rng (t0 + 1)
                ((sample_h_given_v ops m rng t0 m.input).1.2.2) (k - 1)).vSample).smul lr))
            uVbias := some (m.vbias.sub ((ttGradVbias m
              (gibbsIterate ops m rng (t0 + 1)
                ((sample_h_given_v ops m rng t0 m.input).1.2.2) (k - 1)).vSample).smul lr))
            uPersistent := none
            rngCounter := some (t0 + 1 + 2 * k)
            uBitIdx := none }) := by
  cases k with
  | zero => omega
  | succ j =>
    refine ⟨rfl, ?_⟩
    simp only [Nat.add_sub_cancel]
    exact ⟨_, get_cost_updates_cd_eq ops m rng lr j t0⟩

/-- Witness for claim C4 at a concrete one-step CD call. -/
theorem claim_C4_witness :
    mQ.params = [PName.W, PName.hbias, PName.vbias] ∧
    ∃ cost : ℚ,
      get_cost_updates opsQ mQ rngQ 1 1 none 0 =
        Except.ok (cost,
          { uW := some (mQ.W.sub ((ttGradW opsQ mQ
              (gibbsIterate opsQ mQ rngQ 1
                ((sample_h_given_v opsQ mQ rngQ 0 mQ.input).1.2.2) 0).vSample).smul 1))
            uHbias := some (mQ.hbias.sub ((ttGradHbias opsQ mQ
              (gibbsIterate opsQ mQ rngQ 1
                ((sample_h_given_v opsQ mQ rngQ 0 mQ.input).1.2.2) 0).vSample).smul 1))
            uVbias := some (mQ.vbias.sub ((ttGradVbias mQ
              (gibbsIterate opsQ mQ rngQ 1
                ((sample_h_given_v opsQ mQ rngQ 0 mQ.input).1.2.2) 0).vSample).smul 1))
            uPersistent := none
            rngCounter := some 3
            uBitIdx := none }) :=
  claim_C4 opsQ mQ rngQ 1 1 0 (by decide)

/-- Claim C5: contrary to the claim, a call with a persistent state never
returns updates: line 245 does store the final hidden sample under the
persistent variable in the updates dictionary, as the second clause shows,
but the call then raises AttributeError inside
get_pseudo_likelihood_cost, so the updates are never returned.  The first
clause evaluates the code at a concrete failing input. -/
theorem claim_C5 :
    (get_cost_updates opsQ mQ rngQ (1 / 10 : ℚ) 1 (some (onesT [1, 1, 1, 1])) 0 =
      Except.error PyErr.attributeError) ∧
    (∀ (ops : ScalarOps ℚ) (m : CRBM ℚ) (rng : ℕ → Tens ℚ → Tens ℚ)
       (lr : ℚ) (j t0 : ℕ) (p : Tens ℚ),
      get_cost_updates ops m rng lr (j + 1) (some p) t0 =
        get_pseudo_likelihood_cost ops m
          { uW := some (m.W.sub ((ttGradW ops m
              (gibbsIterate ops m rng (t0 + 1) p j).vSample).smul lr))
            uHbias := some (m.hbias.sub ((ttGradHbias ops m
              (gibbsIterate ops m rng (t0 + 1) p j).vSample).smul lr))
            uVbias := some (m.vbias.sub ((ttGradVbias m
              (gibbsIterate ops m rng (t0 + 1) p j).vSample).smul lr))
            uPersistent := some (gibbsIterate ops m rng (t0 + 1) p j).hSample
            rngCounter := some (t0 + 1 + 2 * (j + 1))
            uBitIdx := none }) :=
  ⟨rfl, fun ops m rng lr j t0 p => get_cost_updates_pcd_eq ops m rng lr j t0 p⟩

/-- Claim C6: conv_upward sends a tensor of the visible shape IS to a
tensor of the hidden shape ISinv = [batch, FS0, H - FS2 + 1, W - FS3 + 1],
and conv_downward sends any tensor of that hidden shape back to a tensor
of the original visible shape IS. -/
theorem claim_C6 {K : Type} [Field K] (m : CRBM K) (v : Tens K)
    (hW : m.W.shape = m.FS.toList) (hv : v.shape = m.IS.toList)
    (hc : m.IS.s1 = m.FS.s1)
    (h2a : 1 ≤ m.FS.s2) (h2b : m.FS.s2 ≤ m.IS.s2)
    (h3a : 1 ≤ m.FS.s3) (h3b : m.FS.s3 ≤ m.IS.s3) :
    (conv_upward m v).shape = m.ISinv.toList ∧
    (∀ h : Tens K, h.shape = m.ISinv.toList →
      (conv_downward m h).shape = m.IS.toList) ∧
    (conv_downward m (conv_upward m v)).shape = m.IS.toList := by
  have hd0 : v.dim 0 = m.IS.s0 := by simp [Tens.dim, hv, Shape4.toList]
  have hd2 : v.dim 2 = m.IS.s2 := by simp [Tens.dim, hv, Shape4.toList]
  have hd3 : v.dim 3 = m.IS.s3 := by simp [Tens.dim, hv, Shape4.toList]
  have hw0 : m.W.dim 0 = m.FS.s0 := by simp [Tens.dim, hW, Shape4.toList]
  have hw2 : m.W.dim 2 = m.FS.s2 := by simp [Tens.dim, hW, Shape4.toList]
  have hw3 : m.W.dim 3 = m.FS.s3 := by simp [Tens.dim, hW, Shape4.toList]
  have hup : (conv_upward m v).shape = m.ISinv.toList := by
    show [v.dim 0, m.W.dim 0, v.dim 2 - m.W.dim 2 + 1, v.dim 3 - m.W.dim 3 + 1] =
      m.ISinv.toList
    rw [hd0, hd2, hd3, hw0, hw2, hw3]
    rfl
  have hdown : ∀ h : Tens K, h.shape = m.ISinv.toList →
      (conv_downward m h).shape = m.IS.toList := by
    intro h hh
    have hh0 : h.dim 0 = m.IS.s0 := by
      simp [Tens.dim, hh, CRBM.ISinv, Shape4.toList]
    have hh2 : h.dim 2 = m.IS.s2 - m.FS.s2 + 1 := by
      simp [Tens.dim, hh, CRBM.ISinv, Shape4.toList]
    have hh3 : h.dim 3 = m.IS.s3 - m.FS.s3 + 1 := by
      simp [Tens.dim, hh, CRBM.ISinv, Shape4.toList]
    show [h.dim 0, m.FS.s1, h.dim 2 + m.FS.s2 - 1, h.dim 3 + m.FS.s3 - 1] =
      m.IS.toList
    rw [hh0, hh2, hh3]
    have e2 : m.IS.s2 - m.FS.s2 + 1 + m.FS.s2 - 1 = m.IS.s2 := by omega
    have e3 : m.IS.s3 - m.FS.s3 + 1 + m.FS.s3 - 1 = m.IS.s3 := by omega
    rw [e2, e3, ← hc]
    rfl
  exact ⟨hup, hdown, hdown _ hup⟩

/-- Witness for claim C6 at a concrete model. -/
theorem claim_C6_witness :
    (conv_upward mQ mQ.input).shape = mQ.ISinv.toList ∧
    (∀ h : Tens ℚ, h.shape = mQ.ISinv.toList →
      (conv_downward mQ h).shape = mQ.IS.toList) ∧
    (conv_downward mQ (conv_upward mQ mQ.input)).shape = mQ.IS.toList :=
  claim_C6 mQ mQ.input rfl rfl rfl (by decide) (by decide) (by decide)
    (by decide)

/-- Claim C7: the Gibbs loop returns pre-sigmoid activations as loop
outputs, and the CD monitoring cost applies sigmoid and log outside the
loop to the final pre-sigmoid visible activation; the reconstruction cost
is the batch mean of the cross entropy stated by the specification. -/
theorem claim_C7 {K : Type} [Field K] (ops : ScalarOps K) (m : CRBM K)
    (rng : ℕ → Tens K → Tens K) (lr : K) (k t0 : ℕ) (hk : 1 ≤ k) :
    (∃ upd : Updates K,
      get_cost_updates ops m rng lr k none t0 =
        Except.ok
          (get_reconstruction_cost ops m upd
            (gibbsIterate ops m rng (t0 + 1)
              ((sample_h_given_v ops m rng t0 m.input).1.2.2) (k - 1)).preV,
          upd)) ∧
    (∀ (u : Updates K) (pre : Tens K),
      get_reconstruction_cost ops m u pre = specReconCost ops m pre) := by
  constructor
  · cases k with
    | zero => omega
    | succ j =>
      simp only [Nat.add_sub_cancel]
      exact ⟨_, get_cost_updates_cd_eq ops m rng lr j t0⟩
  · intro u pre
    rfl

/-- Witness for claim C7 at a concrete one-step CD call. -/
theorem claim_C7_witness :
    (∃ upd : Updates ℚ,
      get_cost_updates opsQ mQ rngQ 1 1 none 0 =
        Except.ok
          (get_reconstruction_cost opsQ mQ upd
            (gibbsIterate opsQ mQ rngQ 1
              ((sample_h_given_v opsQ mQ rngQ 0 mQ.input).1.2.2) 0).preV,
          upd)) ∧
    (∀ (u : Updates ℚ) (pre : Tens ℚ),
      get_reconstruction_cost opsQ mQ u pre = specReconCost opsQ mQ pre) :=
  claim_C7 opsQ mQ rngQ 1 1 0 (by decide)

/-- Claim C8: after a successful construction the trainable parameters are
exactly [W, hbias, vbias]; when not supplied, hbias is the zero vector of
length FS0, vbias the zero vector of length FS1, and the input slot is the
fresh symbolic matrix when the input argument is None. -/
theorem claim_C8 {K : Type} [Field K] (ops : ScalarOps K)
    (uniform : K → K → Shape4 → Tens K) (freshMat : Tens K)
    (wArg : Option (Tens K)) (FS IS : Shape4) (hms : IS.s1 = FS.s1) :
    ∃ m : CRBM K,
      crbmInit ops uniform freshMat none wArg none none FS IS = Except.ok m ∧
      m.params = [PName.W, PName.hbias, PName.vbias] ∧
      m.hbias = zerosVec FS.s0 ∧ m.vbias = zerosVec FS.s1 ∧
      m.input = freshMat := by
  simp only [crbmInit, if_pos hms]
  exact ⟨_, rfl, rfl, rfl, rfl, rfl⟩

/-- Witness for claim C8 at concrete shapes. -/
theorem claim_C8_witness :
    ∃ m : CRBM ℚ,
      crbmInit opsQ (fun _ _ _ => onesT [1, 1, 1, 1]) (onesT [1, 1, 1, 1])
          none none none none
          { s0 := 1, s1 := 1, s2 := 1, s3 := 1 }
          { s0 := 1, s1 := 1, s2 := 1, s3 := 1 } = Except.ok m ∧
      m.params = [PName.W, PName.hbias, PName.vbias] ∧
      m.hbias = zerosVec 1 ∧ m.vbias = zerosVec 1 ∧
      m.input = onesT [1, 1, 1, 1] :=
  claim_C8 opsQ (fun _ _ _ => onesT [1, 1, 1, 1]) (onesT [1, 1, 1, 1]) none
    { s0 := 1, s1 := 1, s2 := 1, s3 := 1 }
    { s0 := 1, s1 := 1, s2 := 1, s3 := 1 } rfl

/-- Claim C9: construction asserts IS1 = FS1 and nothing else: with
mismatching channel counts the constructor fails with the assertion, and
with matching counts it succeeds for every choice of the remaining shape
entries and arguments. -/
theorem claim_C9 {K : Type} [Field K] (ops : ScalarOps K)
    (uniform : K → K → Shape4 → Tens K) (freshMat : Tens K)
    (ia wa ha va : Option (Tens K)) (FS IS : Shape4) :
    (IS.s1 ≠ FS.s1 →
      crbmInit ops uniform freshMat ia wa ha va FS IS =
        Except.error PyErr.assertionError) ∧
    (IS.s1 = FS.s1 →
      ∃ m : CRBM K,
        crbmInit ops uniform freshMat ia wa ha va FS IS = Except.ok m) := by
  constructor
  · intro hne
    simp only [crbmInit, if_neg hne]
  · intro heq
    simp only [crbmInit, if_pos heq]
    exact ⟨_, rfl⟩

/-- Witness for claim C9: mismatching channel counts fail the assertion. -/
theorem claim_C9_witness :
    crbmInit opsQ (fun _ _ _ => onesT [1, 1, 1, 1]) (onesT [1, 1, 1, 1])
        none none none none
        { s0 := 1, s1 := 2, s2 := 1, s3 := 1 }
        { s0 := 1, s1 := 1, s2 := 1, s3 := 1 } =
      Except.error PyErr.assertionError :=
  (claim_C9 opsQ (fun _ _ _ => onesT [1, 1, 1, 1]) (onesT [1, 1, 1, 1])
    none none none none
    { s0 := 1, s1 := 2, s2 := 1, s3 := 1 }
    { s0 := 1, s1 := 1, s2 := 1, s3 := 1 }).1 (by decide)

/-- Claim C10: on every CRBM the constructor builds, n_visible is absent,
so every call of get_cost_updates with a persistent state reaches
get_pseudo_likelihood_cost and raises AttributeError instead of returning
a cost. -/
theorem claim_C10 {K : Type} [Field K] (ops : ScalarOps K) (m : CRBM K)
    (rng : ℕ → Tens K → Tens K) (lr : K) (k t0 : ℕ) (hk : 1 ≤ k)
    (p : Tens K) (hm : m.nVisible = none) :
    get_cost_updates ops m rng lr k (some p) t0 =
      Except.error PyErr.attributeError ∧
    (∀ (uniform : K → K → Shape4 → Tens K) (freshMat : Tens K)
       (ia wa ha va : Option (Tens K)) (FS IS : Shape4) (m2 : CRBM K),
      crbmInit ops uniform freshMat ia wa ha va FS IS = Except.ok m2 →
        m2.nVisible = none) := by
  constructor
  · cases k with
    | zero => omega
    | succ j =>
      rw [get_cost_updates_pcd_eq]
      simp [get_pseudo_likelihood_cost, hm]
  · intro uniform freshMat ia wa ha va FS IS m2 hinit
    by_cases hif : IS.s1 = FS.s1
    · simp only [crbmInit, if_pos hif] at hinit
      injection hinit with h2
      rw [← h2]
    · simp only [crbmInit, if_neg hif] at hinit
      exact Except.noConfusion hinit

/-- Witness for claim C10 at a concrete PCD call. -/
theorem claim_C10_witness :
    get_cost_updates opsQ mQ rngQ 1 1 (some (onesT [1, 1, 1, 1])) 0 =
      Except.error PyErr.attributeError ∧
    (∀ (uniform : ℚ → ℚ → Shape4 → Tens ℚ) (freshMat : Tens ℚ)
       (ia wa ha va : Option (Tens ℚ)) (FS IS : Shape4) (m2 : CRBM ℚ),
      crbmInit opsQ uniform freshMat ia wa ha va FS IS = Except.ok m2 →
        m2.nVisible = none) :=
  claim_C10 opsQ mQ rngQ 1 1 0 (by decide) (onesT [1, 1, 1, 1]) rfl

end ConvRBM
